import Mathlib

/-!
# sysdcmdr: a shallow embedding of `sysdcmdr.go`

The development models the three pieces of `sysdcmdr.go` that carry behaviour:

* `FocusHandler` (lines 131-167): the focus rotation over a fixed slice of widgets;
* `Unit`, `UnitList` (lines 169-292): parsing of `systemctl show` output into units,
  the name -> Unit map and the list widget that displays them;
* `Commander`, `StatusBar` (lines 294-333): running an external command and reporting
  the outcome to the status bar.

Modelling conventions.

* A Go `string` / `[]byte` holding text is a Lean `String`.  The separators the program
  splits on (newline, `=`, space) are single ASCII bytes, so splitting the text on the
  character is splitting the bytes; byte lengths are `String.utf8ByteSize`.
* A Go `map[string]T` is an `AList`: an association list without duplicate keys.
  `m[k] = v` is `AList.insert`, and reading `m[k]` yields the zero value of `T` when
  the key is absent.
* A Go `int` index is an `Int`; slice indexing out of range and `%` by zero are
  run-time panics, modelled by `none`.
* The external process is a parameter `run`: it maps the command and its argument
  vector to the combined output and the error of `CombinedOutput`.
* `tview` widgets are modelled by the part of their state the program reads back:
  the list widget is its sequence of `(mainText, secondaryText)` items, the
  application is the primitive holding the focus, the status bar is its colours and
  text.
-/

namespace Sysdcmdr

/-! ## Library functions used by the program -/

/-- Pieces of a character sequence between the occurrences of `sep`
(`strings.Split` with a one-byte separator); never the empty list. -/
def splitChars (sep : Char) : List Char → List (List Char)
  | [] => [[]]
  | c :: cs =>
    if c = sep then [] :: splitChars sep cs
    else
      match splitChars sep cs with
      | [] => [[c]]
      | p :: ps => (c :: p) :: ps

/-- Go `strings.Split(s, sep)` for a separator of one byte. -/
def stringsSplit (s : String) (sep : Char) : List String :=
  (splitChars sep s.data).map String.mk

/-- Lines of the input as `bufio.ScanLines` cuts them, before the carriage return is
dropped: every newline ends a line, and a last line without newline counts when it
is not empty. -/
def rawLines : List Char → List (List Char)
  | [] => []
  | c :: cs =>
    if c = '\n' then [] :: rawLines cs
    else
      match rawLines cs with
      | [] => [[c]]
      | l :: ls => (c :: l) :: ls

/-- Constant `bufio.MaxScanTokenSize`: the size the scanner buffer may grow to. -/
def maxScanTokenSize : Nat := 64 * 1024

/-- Function `dropCR` of package `bufio`: drops one terminal carriage return. -/
def dropCR (l : List Char) : List Char :=
  if l.getLast? = some '\r' then l.dropLast else l

/-- The values `scanner.Text()` takes in `for scanner.Scan() { ... }` for a
`bufio.Scanner` with the default split function and buffer over a `bytes.Reader`:
the lines of the input, each without its terminal carriage return.  A line that does
not fit the buffer together with its newline makes `Scan` return false
(`ErrTooLong`), which ends the loop: that line and all that follows are not seen. -/
def scanLines (out : String) : List String :=
  ((rawLines out.data).takeWhile
    (fun l => decide ((String.mk l).utf8ByteSize < maxScanTokenSize))).map
    (fun l => String.mk (dropCR l))

/-- Go `sort.Strings`: the keys in increasing order (strings compare bytewise, which
for text is the lexicographic order of the code points). -/
def sortStrings (keys : List String) : List String :=
  List.insertionSort (fun a b : String => a.data ≤ b.data) keys

/-- A Go `map[string]T`. -/
abbrev GoMap (T : Type) : Type := AList (fun _ : String => T)

/-! ## Unit -/

/-- Go `type Unit struct { properties map[string]string }`. -/
structure Unit where
  properties : GoMap String
  deriving DecidableEq

/-- Reading `u.properties[k]`: the empty string for an absent key. -/
def Unit.get (u : Unit) (k : String) : String :=
  (u.properties.lookup k).getD ""

/-- One iteration of the loop of `NewUnitFromShowOutputBlock` (lines 246-252). -/
def addProperty (properties : GoMap String) (line : String) : GoMap String :=
  match stringsSplit line '=' with
  | k :: v :: _ => properties.insert k v
  | _ => properties

/-- Go `NewUnitFromShowOutputBlock` (lines 243-255). -/
def NewUnitFromShowOutputBlock (output : String) : Unit :=
  let lines := stringsSplit output '\n'
  ⟨lines.foldl addProperty ∅⟩

/-- Go `Unit.Name` (lines 257-259). -/
def Unit.Name (u : Unit) : String :=
  u.get "Names"

/-- Go `Unit.IsRunning` (lines 261-263). -/
def Unit.IsRunning (u : Unit) : Bool :=
  u.get "SubState" == "running"

/-- The line `fmt.Sprintf("[green]%s[grey]=[yellow]%s\n", k, u.properties[k])`. -/
def Unit.propertyLine (u : Unit) (k : String) : String :=
  "[green]" ++ k ++ "[grey]=[yellow]" ++ u.get k ++ "\n"

/-- Go `Unit.Properties` (lines 265-277). -/
def Unit.Properties (u : Unit) : String :=
  let keys := sortStrings u.properties.keys
  keys.foldl (fun result k => result ++ u.propertyLine k) ""

/-- Go `Unit.ColorizedString` (lines 279-292). -/
def Unit.ColorizedString (u : Unit) : String :=
  let color := "[grey]"
  let color :=
    if u.get "ActiveState" = "active" then
      let color := "[yellow]"
      if u.get "SubState" = "running" then "[green]" else color
    else color
  color ++ u.Name

/-! ## StatusBar and Commander -/

/-- The `tcell` colours the status bar is given. -/
inductive Color where
  | Default | Black | Red | White | LightGray
  deriving DecidableEq

/-- A call of one of the two reporting methods of the status bar. -/
inductive StatusCall where
  | Error (msg : String)
  | Info (msg : String)
  deriving DecidableEq

/-- Go `StatusBar`: the colours and text of its text view.  `calls` is a history
variable: the reporting calls received so far, oldest first. -/
structure StatusBar where
  backgroundColor : Color
  textColor : Color
  text : String
  calls : List StatusCall
  deriving DecidableEq

/-- Go `StatusBar.Error` (lines 323-327). -/
def StatusBar.Error (sb : StatusBar) (msg : String) : StatusBar :=
  { backgroundColor := Color.Red, textColor := Color.White, text := msg,
    calls := sb.calls ++ [StatusCall.Error msg] }

/-- Go `StatusBar.Info` (lines 329-333). -/
def StatusBar.Info (sb : StatusBar) (msg : String) : StatusBar :=
  { backgroundColor := Color.Black, textColor := Color.LightGray, text := msg,
    calls := sb.calls ++ [StatusCall.Info msg] }

/-- What `exec.Command(command, cmdArgs...).CombinedOutput()` returns: the combined
output and the error (`none` is Go `nil`). -/
structure ProcResult where
  out : String
  err : Option String
  deriving DecidableEq

/-- The external process: command and argument vector to result. -/
abbrev Runner : Type := String → List String → ProcResult

/-- Go `Commander`: the status bar it reports to.  `execs` is a history variable:
the `(command, args)` of every `Exec` call so far, oldest first. -/
structure Commander where
  statusBar : StatusBar
  execs : List (String × String)
  deriving DecidableEq

/-- Go `Commander.Exec` (lines 298-311): the commander afterwards, and the two
results `out` and `err`. -/
def Commander.Exec (run : Runner) (c : Commander) (command : String) (args : String) :
    Commander × String × Option String :=
  let cmdArgs := stringsSplit args ' '
  let r := run command cmdArgs
  let c := { c with execs := c.execs ++ [(command, args)] }
  let txt := command ++ " " ++ args ++ "\n"
  match r.err with
  | some e =>
    let txt := txt ++ r.out
    ({ c with statusBar := c.statusBar.Error txt }, r.out, some e)
  | none =>
    ({ c with statusBar := c.statusBar.Info txt }, r.out, none)

/-! ## UnitList -/

/-- Go `UnitList`: `items` are the entries of the embedded list widget in display
order, as `(mainText, secondaryText)`. -/
structure UnitList where
  items : List (String × String)
  units : GoMap Unit
  commander : Commander
  currentFilter : String
  propertiesQuery : String
  deriving DecidableEq

/-- Go `UnitList.addUnit` (lines 198-201). -/
def UnitList.addUnit (l : UnitList) (unit : Unit) : UnitList :=
  { l with
    units := l.units.insert unit.Name unit
    items := l.items ++ [(unit.ColorizedString, unit.Name)] }

/-- The statement `if block != "" { l.addUnit(NewUnitFromShowOutputBlock(block)) }` of
`Update` (lines 221-223 and 230-232). -/
def UnitList.flushBlock (l : UnitList) (block : String) : UnitList :=
  if block ≠ "" then l.addUnit (NewUnitFromShowOutputBlock block) else l

/-- One iteration of the scanning loop of `Update` (lines 218-229) on the pair of
the list and the block accumulated so far. -/
def scanStep (s : UnitList × String) (line : String) : UnitList × String :=
  if line = "" then (s.1.flushBlock s.2, "")
  else (s.1, s.2 ++ (line ++ "\n"))

/-- Go `UnitList.Update` (lines 208-233). -/
def UnitList.Update (run : Runner) (l : UnitList) (filter : String) : UnitList :=
  let l := { l with currentFilter := filter }
  let l := { l with items := [] }
  let filter := "*" ++ filter ++ "*"
  let (c, out, err) :=
    l.commander.Exec run "systemctl" ("show" ++ l.propertiesQuery ++ " -t service " ++ filter)
  let l := { l with commander := c }
  match err with
  | some _ => l
  | none =>
    let s := (scanLines out).foldl scanStep (l, "")
    s.1.flushBlock s.2

/-- Go `UnitList.Refresh` (lines 235-237). -/
def UnitList.Refresh (run : Runner) (l : UnitList) : UnitList :=
  l.Update run l.currentFilter

/-- Go `NewUnitList` (lines 177-196). -/
def NewUnitList (run : Runner) (commander : Commander) (filter : String)
    (extraProperties : String) : UnitList :=
  let propertiesQuery := " --property=ActiveState,SubState,Names"
  let propertiesQuery :=
    if extraProperties = "all" then ""
    else if extraProperties ≠ "" then propertiesQuery ++ ("," ++ extraProperties)
    else propertiesQuery
  let result : UnitList :=
    { items := [], units := ∅, commander := commander,
      currentFilter := filter, propertiesQuery := propertiesQuery }
  result.Refresh run

/-! ## FocusHandler -/

/-- A `tview.Primitive` value, compared by identity. -/
abbrev Primitive : Type := Nat

/-- The `tview.Application`: the primitive that holds the focus, if any. -/
structure Application where
  focus : Option Primitive
  deriving DecidableEq

/-- Method `SetFocus` of the application. -/
def Application.SetFocus (_app : Application) (p : Primitive) : Application :=
  { focus := some p }

/-- Go `FocusHandler` (lines 131-135). -/
structure FocusHandler where
  primitives : List Primitive
  app : Application
  i : Int
  deriving DecidableEq

/-- Go `NewFocusHandler` (lines 137-139). -/
def NewFocusHandler (primitives : List Primitive) (app : Application) : FocusHandler :=
  { primitives := primitives, app := app, i := 0 }

/-- Slice indexing `ps[i]`: `none` is the run-time panic for an index out of range. -/
def sliceAt (ps : List Primitive) (i : Int) : Option Primitive :=
  if 0 ≤ i then ps[i.toNat]? else none

/-- Go `FocusHandler.Current` (lines 141-143). -/
def FocusHandler.Current (fh : FocusHandler) : Option Primitive :=
  sliceAt fh.primitives fh.i

/-- Go `FocusHandler.Next` (lines 145-148); `%` is the truncated remainder of Go and
panics on a zero divisor. -/
def FocusHandler.Next (fh : FocusHandler) : Option FocusHandler :=
  if fh.primitives.length = 0 then none
  else
    let i := Int.tmod (fh.i + 1) fh.primitives.length
    match sliceAt fh.primitives i with
    | none => none
    | some p => some { fh with i := i, app := fh.app.SetFocus p }

/-- The loop of `SetTo` from position `i` on: the position and value of the first
primitive equal to the target. -/
def findTarget (target : Primitive) : List Primitive → Nat → Option (Nat × Primitive)
  | [], _ => none
  | p :: ps, i => if p = target then some (i, p) else findTarget target ps (i + 1)

/-- Go `FocusHandler.SetTo` (lines 150-158). -/
def FocusHandler.SetTo (fh : FocusHandler) (target : Primitive) : FocusHandler :=
  match findTarget target fh.primitives 0 with
  | some (i, _) => { fh with app := fh.app.SetFocus target, i := i }
  | none => fh

/-- Go `FocusHandler.Previous` (lines 160-167). -/
def FocusHandler.Previous (fh : FocusHandler) : Option FocusHandler :=
  let i := if fh.i = 0 then (fh.primitives.length : Int) else fh.i
  let i := i - 1
  match sliceAt fh.primitives i with
  | none => none
  | some p => some { fh with i := i, app := fh.app.SetFocus p }

/-- A call on the focus handler. -/
inductive FocusOp where
  | next
  | previous
  | setTo (target : Primitive)
  deriving DecidableEq

/-- Executes one call; `none` is a panic. -/
def FocusHandler.step (fh : FocusHandler) : FocusOp → Option FocusHandler
  | FocusOp.next => fh.Next
  | FocusOp.previous => fh.Previous
  | FocusOp.setTo target => some (fh.SetTo target)

/-- Executes a sequence of calls, first to last; a panic ends the run. -/
def FocusHandler.steps (fh : FocusHandler) : List FocusOp → Option FocusHandler
  | [] => some fh
  | op :: ops => (fh.step op).bind (fun fh => fh.steps ops)

/-- Calls `f` `k` times in a row; a panic ends the run. -/
def repeatCall (f : FocusHandler → Option FocusHandler) : Nat → FocusHandler →
    Option FocusHandler
  | 0, fh => some fh
  | k + 1, fh => (f fh).bind (repeatCall f k)

/-! ## Derived notions used to state the properties -/

/-- The result of the external command for the query `Update` makes with `filter`:
the command is `systemctl` and the argument string is the one built at lines
211-212. -/
def UnitList.queryResult (run : Runner) (l : UnitList) (filter : String) : ProcResult :=
  run "systemctl"
    (stringsSplit ("show" ++ l.propertiesQuery ++ " -t service " ++ ("*" ++ filter ++ "*")) ' ')

/-- The list when the command of `Update` has returned (lines 209-212): filter
stored, list widget cleared, commander after `Exec`. -/
def UnitList.afterExec (run : Runner) (l : UnitList) (filter : String) : UnitList :=
  { l with
    currentFilter := filter
    items := []
    commander := (l.commander.Exec run "systemctl"
      ("show" ++ l.propertiesQuery ++ " -t service " ++ ("*" ++ filter ++ "*"))).1 }

/-- The blocks the scanning loop of `Update` commits, in order, from the lines still
to read and the block accumulated so far (lines 217-232 without the list). -/
def scanBlocks : String → List String → List String
  | block, [] => if block ≠ "" then [block] else []
  | block, line :: rest =>
    if line = "" then
      if block ≠ "" then block :: scanBlocks "" rest else scanBlocks "" rest
    else scanBlocks (block ++ (line ++ "\n")) rest

/-- The units `Update` parses from a command output, in order. -/
def parsedUnits (out : String) : List Unit :=
  (scanBlocks "" (scanLines out)).map NewUnitFromShowOutputBlock

/-- The entry `addUnit` gives the list widget for a unit. -/
def Unit.entry (u : Unit) : String × String :=
  (u.ColorizedString, u.Name)

/-! ## Command outputs made of blocks -/

/-- A block of a command output: the lines of the block, the name its `Names=` line
gives, and the number of blank lines that follow the block. -/
structure OutputBlock where
  name : String
  lines : List String
  blanks : Nat

/-- A run of `n` newline characters. -/
def newlines (n : Nat) : String :=
  String.mk (List.replicate n '\n')

/-- Concatenation of a list of texts. -/
def concatAll : List String → String
  | [] => ""
  | s :: ss => s ++ concatAll ss

/-- The lines of a block, each ended by a newline. -/
def OutputBlock.body (b : OutputBlock) : String :=
  concatAll (b.lines.map fun line => line ++ "\n")

/-- The text of a block in the output: its lines, then its blank lines. -/
def OutputBlock.text (b : OutputBlock) : String :=
  b.body ++ newlines b.blanks

/-- The command output with `lead` blank lines before the first block, then the
blocks; without `finalNewline` the last newline of that text is left out. -/
def renderOutput (lead : Nat) (blocks : List OutputBlock) (finalNewline : Bool) : String :=
  let full := newlines lead ++ concatAll (blocks.map OutputBlock.text)
  if finalNewline then full else String.mk full.data.dropLast

/-- The lines the scanner reads for a list of blocks: for each block its lines, then
one empty line per blank line. -/
def allRows : List OutputBlock → List String
  | [] => []
  | b :: bs => b.lines ++ (List.replicate b.blanks "" ++ allRows bs)

/-- A line of a block: not empty, one line, without carriage return, and within the
token size of the scanner. -/
def lineOk (s : String) : Prop :=
  s ≠ "" ∧ '\n' ∉ s.data ∧ '\r' ∉ s.data ∧ s.utf8ByteSize < maxScanTokenSize

/-- A block of non-empty lines with a `Names=` line: the line `Names=` followed by
the name is among its lines, the name has no `=`, and every line of the block that
starts with `Names=` is that line. -/
def OutputBlock.ok (b : OutputBlock) : Prop :=
  b.lines ≠ [] ∧ (∀ s ∈ b.lines, lineOk s) ∧ ("Names=" ++ b.name) ∈ b.lines ∧
    '=' ∉ b.name.data ∧
    ∀ s ∈ b.lines, s.data.take 6 = "Names=".data → s = "Names=" ++ b.name

/-- Every block is a block with a name, and every block but the last is followed by
at least one blank line. -/
def wellFormed (blocks : List OutputBlock) : Prop :=
  (∀ b ∈ blocks, b.ok) ∧ ∀ b ∈ blocks.dropLast, 1 ≤ b.blanks

/-! ## Concrete values used to exercise the theorems -/

/-- A status bar as `NewStatusBar` leaves it: nothing reported yet. -/
def sampleStatusBar : StatusBar :=
  { backgroundColor := Color.Default, textColor := Color.Default, text := "", calls := [] }

/-- A commander that has run nothing yet. -/
def sampleCommander : Commander :=
  { statusBar := sampleStatusBar, execs := [] }

/-- A process that fails with some output. -/
def failingRun : Runner :=
  fun _ _ => { out := "Failed to connect to bus\n", err := some "exit status 1" }

/-- A process that succeeds and prints one running unit. -/
def fooRun : Runner :=
  fun _ _ =>
    { out := "Names=foo.service\nActiveState=active\nSubState=running\n\n", err := none }

/-- The unit of the end-to-end example of the specification. -/
def fooUnit : Unit :=
  NewUnitFromShowOutputBlock "Names=foo.service\nActiveState=active\nSubState=running\n"

/-- Two blocks with blank lines around them. -/
def sampleBlocks : List OutputBlock :=
  [{ name := "foo.service"
     lines := ["Names=foo.service", "ActiveState=active", "SubState=running"]
     blanks := 2 },
   { name := "bar.service"
     lines := ["ActiveState=inactive", "Names=bar.service"]
     blanks := 0 }]

/-- A process that succeeds and prints the two blocks, the last line without its
newline. -/
def sampleRun : Runner :=
  fun _ _ => { out := renderOutput 1 sampleBlocks false, err := none }

/-- Two blocks with the same name, one blank line between them. -/
def twinBlocks : List OutputBlock :=
  [{ name := "a.service", lines := ["Names=a.service", "SubState=dead"], blanks := 1 },
   { name := "a.service", lines := ["Names=a.service"], blanks := 0 }]

/-- A process that succeeds and prints two blocks with the same name. -/
def twinRun : Runner :=
  fun _ _ => { out := renderOutput 0 twinBlocks true, err := none }

/-- A unit list as `NewUnitList` starts from: nothing displayed, empty mapping. -/
def emptyList : UnitList :=
  { items := []
    units := ∅
    commander := sampleCommander
    currentFilter := ""
    propertiesQuery := " --property=ActiveState,SubState,Names" }

/-- A unit list showing one unit, `old.service`, from an earlier query. -/
def staleList : UnitList :=
  { items := [("[grey]old.service", "old.service")]
    units := (∅ : GoMap Unit).insert "old.service"
      (NewUnitFromShowOutputBlock "Names=old.service\n")
    commander := sampleCommander
    currentFilter := "old"
    propertiesQuery := " --property=ActiveState,SubState,Names" }

/-! ## Unit presentation -/

theorem sortStrings_perm (keys : List String) : (sortStrings keys).Perm keys :=
  List.perm_insertionSort _ keys

theorem sortStrings_sorted (keys : List String) :
    (sortStrings keys).Sorted (fun a b : String => a ≤ b) := by
  haveI : IsTotal String (fun a b : String => a.data ≤ b.data) :=
    ⟨fun a b => le_total a.data b.data⟩
  haveI : IsTrans String (fun a b : String => a.data ≤ b.data) :=
    ⟨fun a b c hab hbc => le_trans hab hbc⟩
  have h := List.sorted_insertionSort (fun a b : String => a.data ≤ b.data) keys
  exact List.Pairwise.imp (fun {a b} hab => String.le_iff_toList_le.mpr hab) h

theorem foldl_append_eq_join (f : String → String) (ks : List String) (acc : String) :
    ks.foldl (fun result k => result ++ f k) acc = acc ++ String.join (ks.map f) := by
  induction ks generalizing acc with
  | nil => simp [String.join]
  | cons k ks ih =>
    have hj : ∀ (l : List String) (a : String),
        List.foldl (fun r s => r ++ s) a l = a ++ List.foldl (fun r s => r ++ s) "" l := by
      intro l
      induction l with
      | nil => intro a; simp
      | cons x xs ihx =>
        intro a
        simp only [List.foldl_cons]
        rw [ihx (a ++ x), ihx ("" ++ x)]
        simp [String.append_assoc]
    simp only [List.foldl_cons, List.map_cons, String.join]
    rw [ih, hj (List.map f ks) ("" ++ f k)]
    simp [String.join, String.append_assoc]

/-- C8: the colourised label is the name of the unit behind a tone fixed by the
properties `ActiveState` and `SubState` alone: `[green]` for `active`/`running`,
`[yellow]` for `active` with any other or no `SubState`, `[grey]` for any other or
no `ActiveState`, whatever `SubState` is. -/
theorem colorizedString_tone (u : Unit) :
    (u.properties.lookup "ActiveState" = some "active" →
      u.properties.lookup "SubState" = some "running" →
      u.ColorizedString = "[green]" ++ (u.properties.lookup "Names").getD "") ∧
    (u.properties.lookup "ActiveState" = some "active" →
      u.properties.lookup "SubState" ≠ some "running" →
      u.ColorizedString = "[yellow]" ++ (u.properties.lookup "Names").getD "") ∧
    (u.properties.lookup "ActiveState" ≠ some "active" →
      u.ColorizedString = "[grey]" ++ (u.properties.lookup "Names").getD "") := by
  refine ⟨?_, ?_, ?_⟩
  · intro ha hs
    simp [Unit.ColorizedString, Unit.get, Unit.Name, ha, hs]
  · intro ha hs
    have hs2 : (u.properties.lookup "SubState").getD "" ≠ "running" := by
      cases h : u.properties.lookup "SubState" with
      | none => simp
      | some v =>
        rw [h] at hs
        simpa using hs
    simp [Unit.ColorizedString, Unit.get, Unit.Name, ha, hs2]
  · intro ha
    have ha2 : (u.properties.lookup "ActiveState").getD "" ≠ "active" := by
      cases h : u.properties.lookup "ActiveState" with
      | none => simp
      | some v =>
        rw [h] at ha
        simpa using ha
    simp [Unit.ColorizedString, Unit.get, Unit.Name, ha2]

/-- Witness of C8 on the unit `foo.service`, active and running. -/
theorem colorizedString_tone_witness :
    fooUnit.ColorizedString = "[green]" ++ (fooUnit.properties.lookup "Names").getD "" :=
  (colorizedString_tone fooUnit).1 (by decide) (by decide)

/-- C9: `Properties()` is the concatenation of one line
`[green]key[grey]=[yellow]value` per property of the unit, nothing else, the lines
in strictly increasing order of their keys; it is empty for the unit without
properties. -/
theorem properties_sorted_lines (u : Unit) :
    (∃ es : List (Sigma fun _ : String => String),
      es.Perm u.properties.entries ∧
      es.Sorted (fun a b => a.1 < b.1) ∧
      u.Properties =
        String.join (es.map fun e => "[green]" ++ e.1 ++ "[grey]=[yellow]" ++ e.2 ++ "\n")) ∧
    (Unit.mk ∅).Properties = "" := by
  constructor
  · refine ⟨(sortStrings u.properties.keys).map (fun k => ⟨k, u.get k⟩), ?_, ?_, ?_⟩
    · have hp := (sortStrings_perm u.properties.keys).map
        (fun k => (⟨k, u.get k⟩ : Sigma fun _ : String => String))
      have he : u.properties.keys.map
          (fun k => (⟨k, u.get k⟩ : Sigma fun _ : String => String)) =
          u.properties.entries := by
        have : ∀ e ∈ u.properties.entries,
            (⟨e.1, u.get e.1⟩ : Sigma fun _ : String => String) = e := by
          intro e he
          obtain ⟨k, v⟩ := e
          have hl : u.properties.lookup k = some v :=
            AList.mem_lookup_iff.mpr he
          simp [Unit.get, hl]
        simp only [AList.keys, List.keys, List.map_map]
        conv_rhs => rw [← List.map_id u.properties.entries]
        exact List.map_congr_left (fun e he => by simpa using this e he)
      rw [he] at hp
      exact hp
    · have hs := sortStrings_sorted u.properties.keys
      have hn : (sortStrings u.properties.keys).Nodup :=
        (sortStrings_perm u.properties.keys).nodup_iff.mpr u.properties.keys_nodup
      have hlt := hs.lt_of_le hn
      exact List.pairwise_map.mpr hlt
    · simp only [Unit.Properties]
      rw [foldl_append_eq_join]
      simp [List.map_map, Function.comp_def]
      rfl
  · rfl

/-! ## Parsing a block -/

/-- C4 at the block `Environment=LANG=C`: the key is the text before the first `=`,
but the value stored is `LANG`, the text between the first and the second `=`, not
`LANG=C`, all of the text after the first `=`; a line without `=` gives no
property. -/
theorem newUnit_value_cut_at_second_equals :
    (NewUnitFromShowOutputBlock "Environment=LANG=C\nnoise\n").properties.keys =
        ["Environment"] ∧
      (NewUnitFromShowOutputBlock "Environment=LANG=C\nnoise\n").properties.lookup
        "Environment" = some "LANG" ∧
      (NewUnitFromShowOutputBlock "Environment=LANG=C\nnoise\n").properties.lookup
        "Environment" ≠ some "LANG=C" := by
  decide

/-! ## Commander -/

/-- C5: `Exec` makes exactly one status-bar call.  When the process fails the call
is `Error` with the invocation `command + " " + args` (ended by a newline) followed
by the captured output, and `Exec` returns that output with the error; when it
succeeds the call is `Info` with the invocation alone (ended by a newline), and
`Exec` returns the output with a nil error. -/
theorem exec_reports_once (run : Runner) (c : Commander) (command args : String) :
    (∀ e, (run command (stringsSplit args ' ')).err = some e →
      (c.Exec run command args).1.statusBar.calls =
          c.statusBar.calls ++
            [StatusCall.Error (command ++ " " ++ args ++ "\n" ++
              (run command (stringsSplit args ' ')).out)] ∧
        (c.Exec run command args).2 =
          ((run command (stringsSplit args ' ')).out, some e)) ∧
    ((run command (stringsSplit args ' ')).err = none →
      (c.Exec run command args).1.statusBar.calls =
          c.statusBar.calls ++ [StatusCall.Info (command ++ " " ++ args ++ "\n")] ∧
        (c.Exec run command args).2 =
          ((run command (stringsSplit args ' ')).out, none)) := by
  constructor
  · intro e he
    simp [Commander.Exec, he, StatusBar.Error]
  · intro he
    simp [Commander.Exec, he, StatusBar.Info]

/-- Witness of C5: a failing `systemctl stop foo.service`. -/
theorem exec_reports_once_witness :
    (sampleCommander.Exec failingRun "systemctl" "stop foo.service").1.statusBar.calls =
        sampleCommander.statusBar.calls ++
          [StatusCall.Error ("systemctl" ++ " " ++ "stop foo.service" ++ "\n" ++
            (failingRun "systemctl" (stringsSplit "stop foo.service" ' ')).out)] ∧
      (sampleCommander.Exec failingRun "systemctl" "stop foo.service").2 =
        ((failingRun "systemctl" (stringsSplit "stop foo.service" ' ')).out,
          some "exit status 1") :=
  (exec_reports_once failingRun sampleCommander "systemctl" "stop foo.service").1
    "exit status 1" (by decide)

/-! ## The query of the unit list -/

theorem exec_execs (run : Runner) (c : Commander) (command args : String) :
    (c.Exec run command args).1.execs = c.execs ++ [(command, args)] := by
  cases h : (run command (stringsSplit args ' ')).err <;> simp [Commander.Exec, h]

theorem exec_results (run : Runner) (c : Commander) (command args : String) :
    (c.Exec run command args).2 =
      ((run command (stringsSplit args ' ')).out, (run command (stringsSplit args ' ')).err)
    := by
  cases h : (run command (stringsSplit args ' ')).err <;> simp [Commander.Exec, h]

theorem flushBlock_commander (l : UnitList) (block : String) :
    (l.flushBlock block).commander = l.commander ∧
    (l.flushBlock block).currentFilter = l.currentFilter ∧
    (l.flushBlock block).propertiesQuery = l.propertiesQuery := by
  unfold UnitList.flushBlock
  split <;> simp [UnitList.addUnit]

theorem foldl_scanStep_commander (lines : List String) (s : UnitList × String) :
    (lines.foldl scanStep s).1.commander = s.1.commander ∧
    (lines.foldl scanStep s).1.currentFilter = s.1.currentFilter ∧
    (lines.foldl scanStep s).1.propertiesQuery = s.1.propertiesQuery := by
  induction lines generalizing s with
  | nil => simp
  | cons line rest ih =>
    simp only [List.foldl_cons]
    obtain ⟨h1, h2, h3⟩ := ih (scanStep s line)
    rw [h1, h2, h3]
    unfold scanStep
    split
    · exact flushBlock_commander s.1 s.2
    · simp

theorem update_eq (run : Runner) (l : UnitList) (filter : String) :
    l.Update run filter =
      match (l.queryResult run filter).err with
      | some _ => l.afterExec run filter
      | none =>
        ((scanLines (l.queryResult run filter).out).foldl scanStep
          (l.afterExec run filter, "")).1.flushBlock
          ((scanLines (l.queryResult run filter).out).foldl scanStep
            (l.afterExec run filter, "")).2 := by
  have hr := exec_results run l.commander "systemctl"
    ("show" ++ l.propertiesQuery ++ " -t service " ++ ("*" ++ filter ++ "*"))
  unfold UnitList.Update UnitList.queryResult UnitList.afterExec
  simp only []
  rw [Prod.ext_iff] at hr
  obtain ⟨hr1, hr2⟩ := hr
  simp only [] at hr1 hr2
  rw [hr1, hr2]

theorem scan_fold_eq (lines : List String) (l : UnitList) (block : String) :
    (lines.foldl scanStep (l, block)).1.flushBlock (lines.foldl scanStep (l, block)).2 =
      ((scanBlocks block lines).map NewUnitFromShowOutputBlock).foldl UnitList.addUnit l := by
  induction lines generalizing l block with
  | nil =>
    simp only [List.foldl_nil, scanBlocks, UnitList.flushBlock]
    split <;> simp
  | cons line rest ih =>
    simp only [List.foldl_cons, scanStep, scanBlocks]
    by_cases hl : line = ""
    · simp only [hl, if_true]
      rw [ih]
      unfold UnitList.flushBlock
      by_cases hb : block ≠ ""
      · simp [hb]
      · simp [hb]
    · simp only [hl, if_false]
      rw [ih]

theorem update_failure (run : Runner) (l : UnitList) (filter : String) (e : String)
    (h : (l.queryResult run filter).err = some e) :
    l.Update run filter = l.afterExec run filter := by
  rw [update_eq, h]

theorem update_success (run : Runner) (l : UnitList) (filter : String)
    (h : (l.queryResult run filter).err = none) :
    l.Update run filter =
      (parsedUnits (l.queryResult run filter).out).foldl UnitList.addUnit
        (l.afterExec run filter) := by
  rw [update_eq, h]
  simp only []
  rw [scan_fold_eq]
  rfl

theorem addUnits_fields (us : List Unit) (l : UnitList) :
    (us.foldl UnitList.addUnit l).commander = l.commander ∧
    (us.foldl UnitList.addUnit l).currentFilter = l.currentFilter ∧
    (us.foldl UnitList.addUnit l).propertiesQuery = l.propertiesQuery := by
  induction us generalizing l with
  | nil => simp
  | cons u us ih =>
    simp only [List.foldl_cons]
    obtain ⟨h1, h2, h3⟩ := ih (l.addUnit u)
    rw [h1, h2, h3]
    simp [UnitList.addUnit]

theorem addUnits_items (us : List Unit) (l : UnitList) :
    (us.foldl UnitList.addUnit l).items = l.items ++ us.map Unit.entry := by
  induction us generalizing l with
  | nil => simp
  | cons u us ih =>
    simp only [List.foldl_cons, List.map_cons]
    rw [ih]
    simp [UnitList.addUnit, Unit.entry]

theorem addUnits_mem_keys (us : List Unit) (l : UnitList) (k : String) :
    k ∈ (us.foldl UnitList.addUnit l).units.keys ↔
      k ∈ us.map Unit.Name ∨ k ∈ l.units.keys := by
  induction us generalizing l with
  | nil => simp
  | cons u us ih =>
    simp only [List.foldl_cons, List.map_cons, List.mem_cons]
    rw [ih]
    simp only [UnitList.addUnit, ← AList.mem_keys, AList.mem_insert]
    tauto

theorem addUnits_lookup_other (us : List Unit) (l : UnitList) (k : String)
    (hk : k ∉ us.map Unit.Name) :
    (us.foldl UnitList.addUnit l).units.lookup k = l.units.lookup k := by
  induction us generalizing l with
  | nil => simp
  | cons u us ih =>
    simp only [List.map_cons, List.mem_cons, not_or] at hk
    simp only [List.foldl_cons]
    rw [ih _ hk.2]
    simp only [UnitList.addUnit]
    exact AList.lookup_insert_ne hk.1

theorem addUnits_lookup_last (us1 us2 : List Unit) (u : Unit) (l : UnitList)
    (hk : u.Name ∉ us2.map Unit.Name) :
    ((us1 ++ u :: us2).foldl UnitList.addUnit l).units.lookup u.Name = some u := by
  rw [List.foldl_append, List.foldl_cons, addUnits_lookup_other us2 _ _ hk]
  simp only [UnitList.addUnit]
  exact AList.lookup_insert _

theorem update_execs (run : Runner) (l : UnitList) (filter : String) :
    (l.Update run filter).commander.execs =
      l.commander.execs ++
        [("systemctl", "show" ++ l.propertiesQuery ++ " -t service " ++ ("*" ++ filter ++ "*"))]
    ∧ (l.Update run filter).propertiesQuery = l.propertiesQuery := by
  cases h : (l.queryResult run filter).err with
  | some e =>
    rw [update_failure run l filter e h]
    simp [UnitList.afterExec, exec_execs]
  | none =>
    rw [update_success run l filter h]
    obtain ⟨h1, _, h3⟩ := addUnits_fields (parsedUnits (l.queryResult run filter).out)
      (l.afterExec run filter)
    rw [h1, h3]
    simp [UnitList.afterExec, exec_execs]

/-- C10: for every properties mode `p` and initial filter given to `NewUnitList`,
the one query `NewUnitList` itself makes, and the query of every later `Update` with
a filter `f` on the list it returns, pass to the command runner for `systemctl` the
argument string `show`, the property selection of `p`, ` -t service *`, the filter
and `*`; the selection is ` --property=ActiveState,SubState,Names` for the empty
mode, nothing for `all`, and ` --property=ActiveState,SubState,Names,` followed by
`p` otherwise.  The empty filter gives the glob `**`. -/
theorem update_query_args (run : Runner) (c : Commander) (filter p f : String) :
    (NewUnitList run c filter p).commander.execs =
        c.execs ++
          [("systemctl",
            "show" ++
              (if p = "" then " --property=ActiveState,SubState,Names"
               else if p = "all" then ""
               else " --property=ActiveState,SubState,Names," ++ p) ++
              " -t service *" ++ filter ++ "*")] ∧
      ((NewUnitList run c filter p).Update run f).commander.execs =
        (NewUnitList run c filter p).commander.execs ++
          [("systemctl",
            "show" ++
              (if p = "" then " --property=ActiveState,SubState,Names"
               else if p = "all" then ""
               else " --property=ActiveState,SubState,Names," ++ p) ++
              " -t service *" ++ f ++ "*")] ∧
      ((NewUnitList run c filter p).Update run "").commander.execs =
        (NewUnitList run c filter p).commander.execs ++
          [("systemctl",
            "show" ++
              (if p = "" then " --property=ActiveState,SubState,Names"
               else if p = "all" then ""
               else " --property=ActiveState,SubState,Names," ++ p) ++
              " -t service **")] := by
  have hsel : (if p = "all" then ""
      else if p ≠ "" then
        " --property=ActiveState,SubState,Names" ++ ("," ++ p)
      else " --property=ActiveState,SubState,Names") =
      (if p = "" then " --property=ActiveState,SubState,Names"
       else if p = "all" then ""
       else " --property=ActiveState,SubState,Names," ++ p) := by
    by_cases h1 : p = "all"
    · subst h1
      simp
    · by_cases h2 : p = ""
      · subst h2
        simp
      · simp [h1, h2]
        apply String.ext
        simp
  have hq : (NewUnitList run c filter p).propertiesQuery =
      (if p = "" then " --property=ActiveState,SubState,Names"
       else if p = "all" then ""
       else " --property=ActiveState,SubState,Names," ++ p) := by
    unfold NewUnitList UnitList.Refresh
    simp only []
    rw [(update_execs run _ _).2]
    exact hsel
  refine ⟨?_, ?_, ?_⟩
  · unfold NewUnitList UnitList.Refresh
    simp only []
    rw [(update_execs run _ _).1]
    simp only []
    rw [hsel]
    congr 2
    apply congrArg
    apply String.ext
    simp
  · rw [(update_execs run _ f).1, hq]
    congr 2
    apply congrArg
    apply String.ext
    simp
  · rw [(update_execs run _ "").1, hq]
    congr 2
    apply congrArg
    apply String.ext
    simp

/-! ## The catalog after `Update` -/

/-- C2, as stated, fails: after a failing command the list of displayed entries is
empty, not the one shown before the call. -/
theorem update_failure_clears_list :
    ¬ ((staleList.queryResult failingRun "old").err ≠ none →
        (staleList.Update failingRun "old").units = staleList.units ∧
        (staleList.Update failingRun "old").items = staleList.items) :=
  fun h => absurd (h (by decide)).2 (by decide)

/-- C2 (amended): when the external command returns an error, `Update` leaves the
name -> Unit mapping as it was before the call, stores the filter, and leaves the
list of displayed entries empty: the list widget is cleared before the command runs
and nothing is added to it.  The same holds for `Refresh`, which is `Update` with the
stored filter. -/
theorem update_failure_state (run : Runner) (l : UnitList) (filter : String)
    (h : (l.queryResult run filter).err ≠ none) :
    (l.Update run filter).units = l.units ∧
    (l.Update run filter).items = [] ∧
    (l.Update run filter).currentFilter = filter ∧
    (l.Update run filter).propertiesQuery = l.propertiesQuery ∧
    (filter = l.currentFilter →
      (l.Refresh run).units = l.units ∧ (l.Refresh run).items = []) := by
  cases he : (l.queryResult run filter).err with
  | none => exact absurd he h
  | some e =>
    have hu := update_failure run l filter e he
    refine ⟨?_, ?_, ?_, ?_, ?_⟩
    · rw [hu]; rfl
    · rw [hu]; rfl
    · rw [hu]; rfl
    · rw [hu]; rfl
    · intro hf
      subst hf
      unfold UnitList.Refresh
      rw [hu]
      exact ⟨rfl, rfl⟩

/-- Witness of the amended C2: a failing refresh of a list showing `old.service`. -/
theorem update_failure_state_witness :
    (staleList.Update failingRun "old").units = staleList.units ∧
    (staleList.Update failingRun "old").items = [] ∧
    (staleList.Update failingRun "old").currentFilter = "old" ∧
    (staleList.Update failingRun "old").propertiesQuery = staleList.propertiesQuery ∧
    ("old" = staleList.currentFilter →
      (staleList.Refresh failingRun).units = staleList.units ∧
      (staleList.Refresh failingRun).items = []) :=
  update_failure_state failingRun staleList "old" (by decide)

/-- C1, as stated, fails: after a successful `Update` the mapping still has the key
`old.service` of an earlier query, which is the name of no block of the new
output. -/
theorem update_success_keeps_stale_keys :
    ¬ ((staleList.queryResult fooRun "foo").err = none →
        ∀ k ∈ (staleList.Update fooRun "foo").units.keys,
          k ∈ (parsedUnits (staleList.queryResult fooRun "foo").out).map Unit.Name) := by
  decide

/-- C1 (amended): after a successful `Update` the list of displayed entries consists
of exactly the units parsed from that call's command output, one entry per block in
order, so no displayed entry of an earlier query survives.  The mapping is not
cleared: its keys are the names of the parsed units together with the keys it had
before; every name of a parsed unit is bound to the last unit parsed with that name,
and every other key keeps its earlier binding.  The same holds for `Refresh`. -/
theorem update_success_state (run : Runner) (l : UnitList) (filter : String)
    (h : (l.queryResult run filter).err = none) :
    (l.Update run filter).items =
      (parsedUnits (l.queryResult run filter).out).map Unit.entry ∧
    (∀ k, k ∈ (l.Update run filter).units.keys ↔
      k ∈ (parsedUnits (l.queryResult run filter).out).map Unit.Name ∨ k ∈ l.units.keys) ∧
    (∀ us1 u us2, parsedUnits (l.queryResult run filter).out = us1 ++ u :: us2 →
      u.Name ∉ us2.map Unit.Name →
      (l.Update run filter).units.lookup u.Name = some u) ∧
    (∀ k, k ∉ (parsedUnits (l.queryResult run filter).out).map Unit.Name →
      (l.Update run filter).units.lookup k = l.units.lookup k) ∧
    (filter = l.currentFilter → l.Refresh run = l.Update run filter) := by
  have hu := update_success run l filter h
  refine ⟨?_, ?_, ?_, ?_, ?_⟩
  · rw [hu, addUnits_items]
    simp [UnitList.afterExec]
  · intro k
    rw [hu, addUnits_mem_keys]
    rfl
  · intro us1 u us2 hp hk
    rw [hu, hp]
    exact addUnits_lookup_last us1 us2 u _ hk
  · intro k hk
    rw [hu, addUnits_lookup_other _ _ _ hk]
    rfl
  · intro hf
    subst hf
    rfl

/-- Witness of the amended C1: a successful update of a list showing `old.service`
displays `foo.service` alone. -/
theorem update_success_state_witness :
    (staleList.Update fooRun "foo").items =
      (parsedUnits (staleList.queryResult fooRun "foo").out).map Unit.entry ∧
    (staleList.Update fooRun "foo").items = [("[green]foo.service", "foo.service")] :=
  ⟨(update_success_state fooRun staleList "foo" (by decide)).1, by decide⟩

/-! ## FocusHandler -/

theorem sliceAt_isSome (ps : List Primitive) (i : Int) (h0 : 0 ≤ i)
    (h1 : i < (ps.length : Int)) : ∃ p, sliceAt ps i = some p := by
  have hlt : i.toNat < ps.length := (Int.toNat_lt h0).mpr h1
  exact ⟨ps[i.toNat], by simp [sliceAt, h0, List.getElem?_eq_getElem hlt]⟩

theorem next_in_range (fh : FocusHandler) (h0 : 0 ≤ fh.i)
    (h1 : fh.i < (fh.primitives.length : Int)) :
    ∃ fh1, fh.Next = some fh1 ∧ fh1.primitives = fh.primitives ∧
      fh1.i = (fh.i + 1) % (fh.primitives.length : Int) ∧
      0 ≤ fh1.i ∧ fh1.i < (fh.primitives.length : Int) := by
  have hpos : (0 : Int) < (fh.primitives.length : Int) := lt_of_le_of_lt h0 h1
  have hne : fh.primitives.length ≠ 0 := by
    intro h
    rw [h] at hpos
    exact absurd hpos (by decide)
  have ht : Int.tmod (fh.i + 1) (fh.primitives.length : Int) =
      (fh.i + 1) % (fh.primitives.length : Int) :=
    Int.tmod_eq_emod (by omega) (by omega)
  have hlo : 0 ≤ (fh.i + 1) % (fh.primitives.length : Int) :=
    Int.emod_nonneg _ (by omega)
  have hhi : (fh.i + 1) % (fh.primitives.length : Int) < (fh.primitives.length : Int) :=
    Int.emod_lt_of_pos _ hpos
  obtain ⟨p, hp⟩ := sliceAt_isSome fh.primitives _ hlo hhi
  refine ⟨FocusHandler.mk fh.primitives (fh.app.SetFocus p)
    ((fh.i + 1) % (fh.primitives.length : Int)), ?_, rfl, rfl, hlo, hhi⟩
  unfold FocusHandler.Next
  simp only [hne, if_false, ht, hp]

theorem previous_in_range (fh : FocusHandler) (h0 : 0 ≤ fh.i)
    (h1 : fh.i < (fh.primitives.length : Int)) :
    ∃ fh1, fh.Previous = some fh1 ∧ fh1.primitives = fh.primitives ∧
      fh1.i = (fh.i - 1 + (fh.primitives.length : Int)) % (fh.primitives.length : Int) ∧
      0 ≤ fh1.i ∧ fh1.i < (fh.primitives.length : Int) := by
  have hpos : (0 : Int) < (fh.primitives.length : Int) := lt_of_le_of_lt h0 h1
  have hval : (if fh.i = 0 then (fh.primitives.length : Int) else fh.i) - 1 =
      (fh.i - 1 + (fh.primitives.length : Int)) % (fh.primitives.length : Int) := by
    by_cases hz : fh.i = 0
    · rw [if_pos hz, hz]
      rw [Int.emod_eq_of_lt (by omega) (by omega)]
      omega
    · rw [if_neg hz, Int.add_emod_self]
      rw [Int.emod_eq_of_lt (by omega) (by omega)]
  have hlo : 0 ≤ (fh.i - 1 + (fh.primitives.length : Int)) % (fh.primitives.length : Int) :=
    Int.emod_nonneg _ (by omega)
  have hhi : (fh.i - 1 + (fh.primitives.length : Int)) % (fh.primitives.length : Int) <
      (fh.primitives.length : Int) := Int.emod_lt_of_pos _ hpos
  obtain ⟨p, hp⟩ := sliceAt_isSome fh.primitives _ hlo hhi
  refine ⟨FocusHandler.mk fh.primitives (fh.app.SetFocus p)
    ((fh.i - 1 + (fh.primitives.length : Int)) % (fh.primitives.length : Int)),
    ?_, rfl, rfl, hlo, hhi⟩
  unfold FocusHandler.Previous
  simp only [hval, hp]

theorem repeat_next (k : Nat) (fh : FocusHandler) (h0 : 0 ≤ fh.i)
    (h1 : fh.i < (fh.primitives.length : Int)) :
    ∃ fh1, repeatCall FocusHandler.Next k fh = some fh1 ∧
      fh1.primitives = fh.primitives ∧
      fh1.i = (fh.i + (k : Int)) % (fh.primitives.length : Int) := by
  induction k generalizing fh with
  | zero =>
    refine ⟨fh, rfl, rfl, ?_⟩
    simp only [Nat.cast_zero, add_zero]
    exact (Int.emod_eq_of_lt h0 h1).symm
  | succ k ih =>
    obtain ⟨fh1, hn, hp, hi, hlo, hhi⟩ := next_in_range fh h0 h1
    rw [← hp] at hhi
    obtain ⟨fh2, hr, hp2, hi2⟩ := ih fh1 hlo hhi
    refine ⟨fh2, ?_, hp2.trans hp, ?_⟩
    · simp [repeatCall, hn, hr]
    · rw [hi2, hp, hi, Int.emod_add_emod]
      simp only [Nat.cast_add, Nat.cast_one]
      congr 1
      omega

theorem repeat_previous (k : Nat) (fh : FocusHandler) (h0 : 0 ≤ fh.i)
    (h1 : fh.i < (fh.primitives.length : Int)) :
    ∃ fh1, repeatCall FocusHandler.Previous k fh = some fh1 ∧
      fh1.primitives = fh.primitives ∧
      fh1.i = (fh.i - (k : Int)) % (fh.primitives.length : Int) := by
  induction k generalizing fh with
  | zero =>
    refine ⟨fh, rfl, rfl, ?_⟩
    simp only [Nat.cast_zero, sub_zero]
    exact (Int.emod_eq_of_lt h0 h1).symm
  | succ k ih =>
    obtain ⟨fh1, hn, hp, hi, hlo, hhi⟩ := previous_in_range fh h0 h1
    rw [← hp] at hhi
    obtain ⟨fh2, hr, hp2, hi2⟩ := ih fh1 hlo hhi
    refine ⟨fh2, ?_, hp2.trans hp, ?_⟩
    · simp [repeatCall, hn, hr]
    · rw [hi2, hp, hi]
      simp only [Nat.cast_add, Nat.cast_one]
      rw [Int.sub_eq_add_neg, Int.emod_add_emod]
      have hre : fh.i - 1 + (fh.primitives.length : Int) + -(k : Int) =
          fh.i - ((k : Int) + 1) + (fh.primitives.length : Int) := by omega
      rw [hre, Int.add_emod_self]

theorem findTarget_none (target : Primitive) (ps : List Primitive) (n : Nat)
    (h : target ∉ ps) : findTarget target ps n = none := by
  induction ps generalizing n with
  | nil => rfl
  | cons p ps ih =>
    simp only [List.mem_cons, not_or] at h
    have hne : p ≠ target := fun h1 => h.1 h1.symm
    simp only [findTarget, hne, if_false]
    exact ih (n + 1) h.2

theorem findTarget_bound (target : Primitive) (ps : List Primitive) (n i : Nat)
    (p : Primitive) (h : findTarget target ps n = some (i, p)) : i < n + ps.length := by
  induction ps generalizing n with
  | nil => simp [findTarget] at h
  | cons q ps ih =>
    by_cases hq : q = target
    · simp only [findTarget, hq, if_true, Option.some.injEq, Prod.mk.injEq] at h
      simp only [List.length_cons]
      omega
    · simp only [findTarget, hq, if_false] at h
      have := ih (n + 1) h
      simp only [List.length_cons]
      omega

theorem setTo_in_range (fh : FocusHandler) (target : Primitive) (h0 : 0 ≤ fh.i)
    (h1 : fh.i < (fh.primitives.length : Int)) :
    (fh.SetTo target).primitives = fh.primitives ∧ 0 ≤ (fh.SetTo target).i ∧
      (fh.SetTo target).i < (fh.primitives.length : Int) := by
  unfold FocusHandler.SetTo
  cases h : findTarget target fh.primitives 0 with
  | none => exact ⟨rfl, h0, h1⟩
  | some r =>
    obtain ⟨i, p⟩ := r
    have hb := findTarget_bound target fh.primitives 0 i p h
    refine ⟨rfl, ?_, ?_⟩
    · simp
    · simp only []
      omega

theorem steps_in_range (ops : List FocusOp) (fh : FocusHandler) (h0 : 0 ≤ fh.i)
    (h1 : fh.i < (fh.primitives.length : Int)) :
    ∃ fh1, fh.steps ops = some fh1 ∧ fh1.primitives = fh.primitives ∧ 0 ≤ fh1.i ∧
      fh1.i < (fh.primitives.length : Int) := by
  induction ops generalizing fh with
  | nil => exact ⟨fh, rfl, rfl, h0, h1⟩
  | cons op ops ih =>
    have hstep : ∃ fh1, fh.step op = some fh1 ∧ fh1.primitives = fh.primitives ∧
        0 ≤ fh1.i ∧ fh1.i < (fh.primitives.length : Int) := by
      cases op with
      | next =>
        obtain ⟨fh1, hn, hp, _, hlo, hhi⟩ := next_in_range fh h0 h1
        exact ⟨fh1, hn, hp, hlo, hhi⟩
      | previous =>
        obtain ⟨fh1, hn, hp, _, hlo, hhi⟩ := previous_in_range fh h0 h1
        exact ⟨fh1, hn, hp, hlo, hhi⟩
      | setTo target =>
        obtain ⟨hp, hlo, hhi⟩ := setTo_in_range fh target h0 h1
        exact ⟨fh.SetTo target, rfl, hp, hlo, hhi⟩
    obtain ⟨fh1, hs, hp, hlo, hhi⟩ := hstep
    rw [← hp] at hhi
    obtain ⟨fh2, hs2, hp2, hlo2, hhi2⟩ := ih fh1 hlo hhi
    refine ⟨fh2, ?_, hp2.trans hp, hlo2, ?_⟩
    · simp [FocusHandler.steps, hs, hs2]
    · rw [← hp]; exact hhi2

/-- C6: over `N ≥ 1` primitives, `k` calls of `Next` from the handler built by
`NewFocusHandler` (index 0) succeed and leave the index `k mod N`; from any index in
range `Previous` succeeds and sets the index to `(i - 1 + N) mod N`; `Previous`
undoes `Next` and `Next` undoes `Previous`; and `N` calls of `Next` followed by `N`
calls of `Previous` return to the original index. -/
theorem focus_rotation (ps : List Primitive) (app : Application) (hN : ps ≠ []) :
    (∀ k : Nat, ∃ fh, repeatCall FocusHandler.Next k (NewFocusHandler ps app) = some fh ∧
      fh.i = ((k % ps.length : Nat) : Int)) ∧
    (∀ i : Int, 0 ≤ i → i < (ps.length : Int) →
      ∃ fh, (FocusHandler.mk ps app i).Previous = some fh ∧
        fh.i = (i - 1 + (ps.length : Int)) % (ps.length : Int)) ∧
    (∀ i : Int, 0 ≤ i → i < (ps.length : Int) →
      (∃ fh, (FocusHandler.mk ps app i).Next.bind FocusHandler.Previous = some fh ∧
        fh.i = i) ∧
      (∃ fh, (FocusHandler.mk ps app i).Previous.bind FocusHandler.Next = some fh ∧
        fh.i = i)) ∧
    (∀ i : Int, 0 ≤ i → i < (ps.length : Int) →
      ∃ fh1 fh2, repeatCall FocusHandler.Next ps.length (FocusHandler.mk ps app i) = some fh1 ∧
        repeatCall FocusHandler.Previous ps.length fh1 = some fh2 ∧ fh2.i = i) := by
  have hpos : (0 : Int) < (ps.length : Int) := by
    have : 0 < ps.length := List.length_pos.mpr hN
    omega
  refine ⟨?_, ?_, ?_, ?_⟩
  · intro k
    obtain ⟨fh, hr, _, hi⟩ := repeat_next k (NewFocusHandler ps app) (le_refl _) hpos
    refine ⟨fh, hr, ?_⟩
    rw [hi]
    simp [NewFocusHandler]
  · intro i h0 h1
    obtain ⟨fh, hr, _, hi, _⟩ := previous_in_range (FocusHandler.mk ps app i) h0 h1
    exact ⟨fh, hr, hi⟩
  · intro i h0 h1
    constructor
    · obtain ⟨fh1, hn, hp, hi, hlo, hhi⟩ := next_in_range (FocusHandler.mk ps app i) h0 h1
      rw [← hp] at hhi
      obtain ⟨fh2, hn2, _, hi2, _⟩ := previous_in_range fh1 hlo hhi
      refine ⟨fh2, by simp [hn, hn2], ?_⟩
      rw [hi2, hp, hi]
      simp only []
      rw [Int.sub_eq_add_neg, Int.add_assoc, Int.emod_add_emod]
      have hre : i + 1 + (-1 + (ps.length : Int)) = i + (ps.length : Int) := by omega
      rw [hre, Int.add_emod_self]
      exact Int.emod_eq_of_lt h0 h1
    · obtain ⟨fh1, hn, hp, hi, hlo, hhi⟩ :=
        previous_in_range (FocusHandler.mk ps app i) h0 h1
      rw [← hp] at hhi
      obtain ⟨fh2, hn2, _, hi2, _⟩ := next_in_range fh1 hlo hhi
      refine ⟨fh2, by simp [hn, hn2], ?_⟩
      rw [hi2, hp, hi]
      simp only []
      rw [Int.emod_add_emod]
      have hre : i - 1 + (ps.length : Int) + 1 = i + (ps.length : Int) := by omega
      rw [hre, Int.add_emod_self]
      exact Int.emod_eq_of_lt h0 h1
  · intro i h0 h1
    obtain ⟨fh1, hr1, hp1, hi1⟩ := repeat_next ps.length (FocusHandler.mk ps app i) h0 h1
    have hi1b : fh1.i = i := by
      rw [hi1]
      simp only []
      rw [Int.add_emod_self]
      exact Int.emod_eq_of_lt h0 h1
    have hp1b : fh1.primitives = ps := hp1
    obtain ⟨fh2, hr2, _, hi2⟩ := repeat_previous ps.length fh1
      (by rw [hi1b]; exact h0) (by rw [hi1b, hp1b]; exact h1)
    refine ⟨fh1, fh2, hr1, hr2, ?_⟩
    rw [hi2, hi1b, hp1b]
    have hm : (i - (ps.length : Int)) % (ps.length : Int) = i % (ps.length : Int) := by
      have h := Int.add_mul_emod_self (a := i) (b := -1) (c := (ps.length : Int))
      have hre : i + -1 * (ps.length : Int) = i - (ps.length : Int) := by ring
      rw [hre] at h
      exact h
    rw [hm]
    exact Int.emod_eq_of_lt h0 h1

/-- Witness of C6: five calls of `Next` over three primitives leave the index 2. -/
theorem focus_rotation_witness :
    ∃ fh, repeatCall FocusHandler.Next 5 (NewFocusHandler [7, 8, 9] ⟨none⟩) = some fh ∧
      fh.i = ((5 % [7, 8, 9].length : Nat) : Int) :=
  (focus_rotation [7, 8, 9] ⟨none⟩ (by decide)).1 5

/-- C7: for a handler built by `NewFocusHandler` over a non-empty list, every finite
sequence of `Next`, `Previous` and `SetTo` calls runs without panic and ends with the
same primitives and an index `0 ≤ i < len(primitives)`, at which `Current` is
defined; and `SetTo` with a target that is not in the list changes nothing. -/
theorem focus_index_in_range (ps : List Primitive) (app : Application) (hN : ps ≠ [])
    (ops : List FocusOp) :
    (∃ fh, (NewFocusHandler ps app).steps ops = some fh ∧ fh.primitives = ps ∧
      0 ≤ fh.i ∧ fh.i < (ps.length : Int) ∧ ∃ p, fh.Current = some p) ∧
    (∀ (fh : FocusHandler) (target : Primitive),
      target ∉ fh.primitives → fh.SetTo target = fh) := by
  have hpos : (0 : Int) < (ps.length : Int) := by
    have : 0 < ps.length := List.length_pos.mpr hN
    omega
  constructor
  · obtain ⟨fh, hs, hp, hlo, hhi⟩ :=
      steps_in_range ops (NewFocusHandler ps app) (le_refl _) hpos
    have hp2 : fh.primitives = ps := hp
    refine ⟨fh, hs, hp2, hlo, hhi, ?_⟩
    unfold FocusHandler.Current
    rw [hp2]
    exact sliceAt_isSome ps fh.i hlo hhi
  · intro fh target ht
    unfold FocusHandler.SetTo
    rw [findTarget_none target fh.primitives 0 ht]

/-- Witness of C7: a run of five calls over three primitives, one of them a `SetTo`
with a target outside the list. -/
theorem focus_index_in_range_witness :
    ∃ fh, (NewFocusHandler [7, 8, 9] ⟨none⟩).steps
        [FocusOp.previous, FocusOp.setTo 4, FocusOp.next, FocusOp.setTo 8, FocusOp.next] =
          some fh ∧ fh.primitives = [7, 8, 9] ∧
      0 ≤ fh.i ∧ fh.i < (([7, 8, 9] : List Primitive).length : Int) ∧
      ∃ p, fh.Current = some p :=
  (focus_index_in_range [7, 8, 9] ⟨none⟩ (by decide)
    [FocusOp.previous, FocusOp.setTo 4, FocusOp.next, FocusOp.setTo 8, FocusOp.next]).1

/-! ## Scanning a command output made of blocks -/

theorem rawLines_cons_newline (cs : List Char) :
    rawLines ('\n' :: cs) = [] :: rawLines cs := by
  simp [rawLines]

theorem rawLines_cons_other (c : Char) (cs : List Char) (hc : c ≠ '\n') :
    rawLines (c :: cs) =
      match rawLines cs with
      | [] => [[c]]
      | l :: ls => (c :: l) :: ls := by
  simp [rawLines, hc]

theorem rawLines_line (l rest : List Char) (h : '\n' ∉ l) :
    rawLines (l ++ '\n' :: rest) = l :: rawLines rest := by
  induction l with
  | nil => simp [rawLines]
  | cons c cs ih =>
    simp only [List.mem_cons, not_or] at h
    have hc : c ≠ '\n' := fun h1 => h.1 h1.symm
    rw [List.cons_append, rawLines_cons_other c _ hc, ih h.2]

theorem rawLines_newlines (n : Nat) (rest : List Char) :
    rawLines (List.replicate n '\n' ++ rest) = List.replicate n [] ++ rawLines rest := by
  induction n with
  | zero => simp
  | succ n ih =>
    rw [List.replicate_succ, List.cons_append, rawLines_cons_newline, ih]
    simp [List.replicate_succ]

theorem rawLines_snoc_newline (xs : List Char) :
    rawLines (xs ++ ['\n']) = rawLines xs ∨ rawLines (xs ++ ['\n']) = rawLines xs ++ [[]] := by
  induction xs with
  | nil => right; simp [rawLines]
  | cons c cs ih =>
    by_cases hc : c = '\n'
    · subst hc
      rw [List.cons_append, rawLines_cons_newline, rawLines_cons_newline]
      rcases ih with h | h
      · left; rw [h]
      · right; rw [h]; simp
    · rw [List.cons_append, rawLines_cons_other c _ hc, rawLines_cons_other c _ hc]
      rcases ih with h | h
      · left; rw [h]
      · rw [h]
        cases hr : rawLines cs with
        | nil => left; simp
        | cons l ls => right; simp

theorem concatAll_lines_data (lines : List String) (rest : List Char)
    (h : ∀ s ∈ lines, '\n' ∉ s.data) :
    rawLines ((concatAll (lines.map fun line => line ++ "\n")).data ++ rest) =
      lines.map String.data ++ rawLines rest := by
  induction lines with
  | nil => simp [concatAll]
  | cons s ss ih =>
    have hs : '\n' ∉ s.data := h s (List.mem_cons_self _ _)
    have hss : ∀ t ∈ ss, '\n' ∉ t.data := fun t ht => h t (List.mem_cons_of_mem _ ht)
    simp only [List.map_cons, concatAll, String.data_append, List.append_assoc]
    rw [List.singleton_append, rawLines_line _ _ hs, ih hss]
    simp

theorem rawLines_blocks (blocks : List OutputBlock) (rest : List Char)
    (h : ∀ b ∈ blocks, ∀ s ∈ b.lines, '\n' ∉ s.data) :
    rawLines ((concatAll (blocks.map OutputBlock.text)).data ++ rest) =
      (allRows blocks).map String.data ++ rawLines rest := by
  induction blocks with
  | nil => simp [concatAll, allRows]
  | cons b bs ih =>
    have hb : ∀ s ∈ b.lines, '\n' ∉ s.data := h b (List.mem_cons_self _ _)
    have hbs : ∀ b1 ∈ bs, ∀ s ∈ b1.lines, '\n' ∉ s.data :=
      fun b1 hb1 => h b1 (List.mem_cons_of_mem _ hb1)
    simp only [List.map_cons, concatAll, OutputBlock.text, OutputBlock.body,
      String.data_append, List.append_assoc, allRows, List.map_append]
    rw [concatAll_lines_data _ _ hb]
    have hn : (newlines b.blanks).data = List.replicate b.blanks '\n' := rfl
    rw [hn, rawLines_newlines, ih hbs]
    simp

theorem rawLines_full (lead : Nat) (blocks : List OutputBlock)
    (h : ∀ b ∈ blocks, ∀ s ∈ b.lines, '\n' ∉ s.data) :
    rawLines (newlines lead ++ concatAll (blocks.map OutputBlock.text)).data =
      (List.replicate lead "" ++ allRows blocks).map String.data := by
  have hn : (newlines lead).data = List.replicate lead '\n' := rfl
  have h2 := rawLines_blocks blocks [] h
  rw [List.append_nil] at h2
  rw [String.data_append, hn, rawLines_newlines, h2]
  simp [rawLines]

theorem dropCR_of_not_mem (l : List Char) (h : '\r' ∉ l) : dropCR l = l := by
  unfold dropCR
  have : l.getLast? ≠ some '\r' := by
    intro hl
    exact h (List.mem_of_getLast?_eq_some hl)
  simp [this]

theorem rowOk_blank : ("" : String).utf8ByteSize < maxScanTokenSize ∧ '\r' ∉ ("" : String).data := by
  decide

theorem scanLines_of_rows (out : String) (rows : List String)
    (hraw : rawLines out.data = rows.map String.data)
    (hok : ∀ s ∈ rows, s.utf8ByteSize < maxScanTokenSize ∧ '\r' ∉ s.data) :
    scanLines out = rows := by
  unfold scanLines
  rw [hraw]
  have htw : (rows.map String.data).takeWhile
      (fun l => decide ((String.mk l).utf8ByteSize < maxScanTokenSize)) =
      rows.map String.data := by
    rw [List.takeWhile_eq_self_iff]
    intro l hl
    obtain ⟨s, hs, rfl⟩ := List.mem_map.mp hl
    simpa using (hok s hs).1
  rw [htw, List.map_map]
  conv_rhs => rw [← List.map_id rows]
  apply List.map_congr_left
  intro s hs
  simp only [Function.comp_apply, id]
  rw [dropCR_of_not_mem _ (hok s hs).2]

theorem scanBlocks_blank_lines (n : Nat) (rest : List String) :
    scanBlocks "" (List.replicate n "" ++ rest) = scanBlocks "" rest := by
  induction n with
  | zero => simp
  | succ n ih =>
    rw [List.replicate_succ, List.cons_append]
    simp only [scanBlocks]
    simpa using ih

theorem scanBlocks_lines (ls rest : List String) (block : String)
    (h : ∀ s ∈ ls, s ≠ "") :
    scanBlocks block (ls ++ rest) =
      scanBlocks (block ++ concatAll (ls.map fun line => line ++ "\n")) rest := by
  induction ls generalizing block with
  | nil => simp [concatAll]
  | cons s ss ih =>
    have hs : s ≠ "" := h s (List.mem_cons_self _ _)
    have hss : ∀ t ∈ ss, t ≠ "" := fun t ht => h t (List.mem_cons_of_mem _ ht)
    rw [List.cons_append]
    simp only [scanBlocks, hs, if_false]
    rw [ih _ hss]
    simp [concatAll, String.append_assoc]

theorem scanBlocks_snoc_blank (ls : List String) (block : String) :
    scanBlocks block (ls ++ [""]) = scanBlocks block ls := by
  induction ls generalizing block with
  | nil =>
    by_cases hb : block = ""
    · simp [scanBlocks, hb]
    · simp [scanBlocks, hb]
  | cons s ss ih =>
    rw [List.cons_append]
    by_cases hs : s = ""
    · subst hs
      simp only [scanBlocks, if_true]
      split <;> simp [ih]
    · simp only [scanBlocks, hs, if_false]
      exact ih _

theorem scanBlocks_after_block (block : String) (k : Nat) (rest : List String)
    (hb : block ≠ "") (hk : 1 ≤ k ∨ rest = []) :
    scanBlocks block (List.replicate k "" ++ rest) = block :: scanBlocks "" rest := by
  cases k with
  | zero =>
    rcases hk with hk | hk
    · omega
    · subst hk
      simp [scanBlocks, hb]
  | succ k =>
    rw [List.replicate_succ, List.cons_append]
    simp only [scanBlocks, if_true, hb, ne_eq, not_false_eq_true]
    rw [scanBlocks_blank_lines]

theorem body_ne_empty (b : OutputBlock) (h : b.lines ≠ []) : b.body ≠ "" := by
  unfold OutputBlock.body
  cases hl : b.lines with
  | nil => exact absurd hl h
  | cons s ss =>
    intro he
    have hd := congrArg String.data he
    simp [concatAll] at hd

theorem scanBlocks_allRows (blocks : List OutputBlock) (h : wellFormed blocks) :
    scanBlocks "" (allRows blocks) = blocks.map OutputBlock.body := by
  induction blocks with
  | nil => simp [allRows, scanBlocks]
  | cons b bs ih =>
    obtain ⟨hok, hgap⟩ := h
    have hb : b.ok := hok b (List.mem_cons_self _ _)
    have hwf : wellFormed bs := by
      refine ⟨fun b1 hb1 => hok b1 (List.mem_cons_of_mem _ hb1), ?_⟩
      intro b1 hb1
      apply hgap
      cases bs with
      | nil => simp at hb1
      | cons b2 bs2 =>
        rw [List.dropLast_cons_of_ne_nil (List.cons_ne_nil _ _)]
        exact List.mem_cons_of_mem _ hb1
    have hne : ∀ s ∈ b.lines, s ≠ "" := fun s hs => (hb.2.1 s hs).1
    have hk : 1 ≤ b.blanks ∨ allRows bs = [] := by
      cases bs with
      | nil => right; rfl
      | cons b2 bs2 =>
        left
        apply hgap
        rw [List.dropLast_cons_of_ne_nil (List.cons_ne_nil _ _)]
        exact List.mem_cons_self _ _
    simp only [allRows, List.map_cons]
    rw [scanBlocks_lines _ _ _ hne]
    have hbody : "" ++ concatAll (b.lines.map fun line => line ++ "\n") = b.body := by
      simp [OutputBlock.body]
    rw [hbody, scanBlocks_after_block _ _ _ (body_ne_empty b hb.1) hk, ih hwf]

theorem rows_ok (lead : Nat) (blocks : List OutputBlock) (h : ∀ b ∈ blocks, b.ok) :
    ∀ s ∈ List.replicate lead "" ++ allRows blocks,
      s.utf8ByteSize < maxScanTokenSize ∧ '\r' ∉ s.data := by
  have hrows : ∀ s ∈ allRows blocks, s.utf8ByteSize < maxScanTokenSize ∧ '\r' ∉ s.data := by
    induction blocks with
    | nil => simp [allRows]
    | cons b bs ih =>
      intro s hs
      simp only [allRows, List.mem_append] at hs
      rcases hs with hs | hs | hs
      · have := (h b (List.mem_cons_self _ _)).2.1 s hs
        exact ⟨this.2.2.2, this.2.2.1⟩
      · rw [List.eq_of_mem_replicate hs]
        exact rowOk_blank
      · exact ih (fun b1 hb1 => h b1 (List.mem_cons_of_mem _ hb1)) s hs
  intro s hs
  rcases List.mem_append.mp hs with hs | hs
  · rw [List.eq_of_mem_replicate hs]
    exact rowOk_blank
  · exact hrows s hs

theorem endsNewline_append (a b : List Char)
    (ha : a = [] ∨ ∃ xs, a = xs ++ ['\n']) (hb : b = [] ∨ ∃ xs, b = xs ++ ['\n']) :
    a ++ b = [] ∨ ∃ xs, a ++ b = xs ++ ['\n'] := by
  rcases hb with hb | ⟨ys, hb⟩
  · subst hb
    simpa using ha
  · right
    exact ⟨a ++ ys, by rw [hb, List.append_assoc]⟩

theorem endsNewline_full (lead : Nat) (blocks : List OutputBlock) :
    (newlines lead ++ concatAll (blocks.map OutputBlock.text)).data = [] ∨
      ∃ xs, (newlines lead ++ concatAll (blocks.map OutputBlock.text)).data = xs ++ ['\n'] := by
  have hnl : ∀ n, (newlines n).data = [] ∨ ∃ xs, (newlines n).data = xs ++ ['\n'] := by
    intro n
    cases n with
    | zero => left; rfl
    | succ n =>
      right
      exact ⟨List.replicate n '\n', by
        show List.replicate (n + 1) '\n' = _
        rw [List.replicate_succ']⟩
  have hbody : ∀ b : OutputBlock, b.body.data = [] ∨ ∃ xs, b.body.data = xs ++ ['\n'] := by
    intro b
    unfold OutputBlock.body
    induction b.lines with
    | nil => left; rfl
    | cons s ss ih =>
      simp only [List.map_cons, concatAll, String.data_append]
      exact endsNewline_append _ _ (Or.inr ⟨s.data, rfl⟩) ih
  have hblocks : (concatAll (blocks.map OutputBlock.text)).data = [] ∨
      ∃ xs, (concatAll (blocks.map OutputBlock.text)).data = xs ++ ['\n'] := by
    induction blocks with
    | nil => left; rfl
    | cons b bs ih =>
      simp only [List.map_cons, concatAll, OutputBlock.text, String.data_append]
      exact endsNewline_append _ _ (endsNewline_append _ _ (hbody b) (hnl b.blanks)) ih
  rw [String.data_append]
  exact endsNewline_append _ _ (hnl lead) hblocks

theorem scanBlocks_render (lead : Nat) (blocks : List OutputBlock) (finalNewline : Bool)
    (h : wellFormed blocks) :
    scanBlocks "" (scanLines (renderOutput lead blocks finalNewline)) =
      blocks.map OutputBlock.body := by
  have hnl : ∀ b ∈ blocks, ∀ s ∈ b.lines, '\n' ∉ s.data :=
    fun b hb s hs => ((h.1 b hb).2.1 s hs).2.1
  have hraw := rawLines_full lead blocks hnl
  have hok := rows_ok lead blocks h.1
  have hfull : scanBlocks "" (List.replicate lead "" ++ allRows blocks) =
      blocks.map OutputBlock.body := by
    rw [scanBlocks_blank_lines, scanBlocks_allRows blocks h]
  cases finalNewline with
  | true =>
    have hs : scanLines (renderOutput lead blocks true) =
        List.replicate lead "" ++ allRows blocks :=
      scanLines_of_rows _ _ (by simpa [renderOutput] using hraw) hok
    rw [hs, hfull]
  | false =>
    rcases endsNewline_full lead blocks with he | ⟨xs, he⟩
    · have hs : scanLines (renderOutput lead blocks false) =
          List.replicate lead "" ++ allRows blocks := by
        apply scanLines_of_rows _ _ _ hok
        simp only [renderOutput, Bool.false_eq_true, if_false]
        rw [← hraw, he]
        rfl
      rw [hs, hfull]
    · have hd : (renderOutput lead blocks false).data = xs := by
        simp only [renderOutput, Bool.false_eq_true, if_false]
        rw [he, List.dropLast_concat]
      rw [he] at hraw
      rcases rawLines_snoc_newline xs with h1 | h1
      · have hs : scanLines (renderOutput lead blocks false) =
            List.replicate lead "" ++ allRows blocks := by
          apply scanLines_of_rows _ _ _ hok
          rw [hd, ← h1, hraw]
        rw [hs, hfull]
      · rw [h1] at hraw
        obtain ⟨r1, r2, hr, hr1, hr2⟩ := List.map_eq_append_iff.mp hraw.symm
        have hr2b : r2 = [""] := by
          cases r2 with
          | nil => simp at hr2
          | cons t ts =>
            simp only [List.map_cons, List.cons.injEq, List.map_eq_nil_iff] at hr2
            rw [hr2.2, String.ext hr2.1]
        subst hr2b
        have hs : scanLines (renderOutput lead blocks false) = r1 := by
          apply scanLines_of_rows _ _ (by rw [hd, hr1])
          intro s hs
          exact hok s (by rw [hr]; exact List.mem_append_left _ hs)
        rw [hs, ← scanBlocks_snoc_blank, ← hr, hfull]

theorem parsedUnits_render (lead : Nat) (blocks : List OutputBlock) (finalNewline : Bool)
    (h : wellFormed blocks) :
    parsedUnits (renderOutput lead blocks finalNewline) =
      blocks.map fun b => NewUnitFromShowOutputBlock b.body := by
  unfold parsedUnits
  rw [scanBlocks_render lead blocks finalNewline h, List.map_map]
  rfl

/-! ## The unit of a block -/

theorem splitChars_cons_sep (sep : Char) (cs : List Char) :
    splitChars sep (sep :: cs) = [] :: splitChars sep cs := by
  simp [splitChars]

theorem splitChars_cons_other (sep c : Char) (cs : List Char) (hc : c ≠ sep) :
    splitChars sep (c :: cs) =
      match splitChars sep cs with
      | [] => [[c]]
      | p :: ps => (c :: p) :: ps := by
  simp [splitChars, hc]

theorem splitChars_line (sep : Char) (l rest : List Char) (h : sep ∉ l) :
    splitChars sep (l ++ sep :: rest) = l :: splitChars sep rest := by
  induction l with
  | nil => simp [splitChars]
  | cons c cs ih =>
    simp only [List.mem_cons, not_or] at h
    have hc : c ≠ sep := fun h1 => h.1 h1.symm
    rw [List.cons_append, splitChars_cons_other sep c _ hc, ih h.2]

theorem splitChars_none (sep : Char) (l : List Char) (h : sep ∉ l) :
    splitChars sep l = [l] := by
  induction l with
  | nil => simp [splitChars]
  | cons c cs ih =>
    simp only [List.mem_cons, not_or] at h
    have hc : c ≠ sep := fun h1 => h.1 h1.symm
    rw [splitChars_cons_other sep c _ hc, ih h.2]

theorem splitChars_head (sep : Char) (l k v : List Char) (rest : List (List Char))
    (h : splitChars sep l = k :: v :: rest) : ∃ t, l = k ++ sep :: t := by
  induction l generalizing k with
  | nil => simp [splitChars] at h
  | cons c cs ih =>
    by_cases hc : c = sep
    · subst hc
      rw [splitChars_cons_sep] at h
      simp only [List.cons.injEq] at h
      exact ⟨cs, by rw [← h.1]; rfl⟩
    · rw [splitChars_cons_other sep c _ hc] at h
      cases hs : splitChars sep cs with
      | nil =>
        rw [hs] at h
        simp at h
      | cons p ps =>
        rw [hs] at h
        simp only [List.cons.injEq] at h
        obtain ⟨hk, hps⟩ := h
        rw [hps] at hs
        obtain ⟨t, ht⟩ := ih p hs
        exact ⟨t, by rw [← hk, ht]; rfl⟩

theorem stringsSplit_body (lines : List String) (h : ∀ s ∈ lines, '\n' ∉ s.data) :
    stringsSplit (concatAll (lines.map fun line => line ++ "\n")) '\n' = lines ++ [""] := by
  unfold stringsSplit
  have hc : splitChars '\n' (concatAll (lines.map fun line => line ++ "\n")).data =
      lines.map String.data ++ [[]] := by
    induction lines with
    | nil => simp [concatAll, splitChars]
    | cons s ss ih =>
      have hs : '\n' ∉ s.data := h s (List.mem_cons_self _ _)
      have hss : ∀ t ∈ ss, '\n' ∉ t.data := fun t ht => h t (List.mem_cons_of_mem _ ht)
      simp only [List.map_cons, concatAll, String.data_append, List.append_assoc]
      rw [List.singleton_append, splitChars_line _ _ _ hs, ih hss]
      simp
  rw [hc]
  simp [List.map_map, Function.comp_def]

theorem addProperty_blank (m : GoMap String) : addProperty m "" = m := by
  simp [addProperty, stringsSplit, splitChars]

theorem newUnit_body (b : OutputBlock) (h : ∀ s ∈ b.lines, '\n' ∉ s.data) :
    NewUnitFromShowOutputBlock b.body = ⟨b.lines.foldl addProperty ∅⟩ := by
  unfold NewUnitFromShowOutputBlock OutputBlock.body
  simp only []
  rw [stringsSplit_body _ h, List.foldl_append]
  simp [addProperty_blank]

theorem addProperty_names_line (m : GoMap String) (name : String) (h : '=' ∉ name.data) :
    (addProperty m ("Names=" ++ name)).lookup "Names" = some name := by
  have hsplit : stringsSplit ("Names=" ++ name) '=' = ["Names", name] := by
    unfold stringsSplit
    have hd : ("Names=" ++ name).data = "Names".data ++ '=' :: name.data := by
      rw [String.data_append]
      rfl
    rw [hd, splitChars_line _ _ _ (by decide), splitChars_none _ _ h]
    rfl
  unfold addProperty
  rw [hsplit]
  exact AList.lookup_insert _

theorem addProperty_names_other (m : GoMap String) (b : OutputBlock) (hb : b.ok)
    (s : String) (hs : s ∈ b.lines) :
    (addProperty m s).lookup "Names" = some b.name ∨
      (addProperty m s).lookup "Names" = m.lookup "Names" := by
  unfold addProperty
  cases hsp : stringsSplit s '=' with
  | nil => right; rfl
  | cons k rest1 =>
    cases rest1 with
    | nil => right; rfl
    | cons v rest =>
      simp only []
      by_cases hk : k = "Names"
      · left
        subst hk
        unfold stringsSplit at hsp
        cases hc : splitChars '=' s.data with
        | nil => rw [hc] at hsp; simp at hsp
        | cons k1 r1 =>
          cases r1 with
          | nil => rw [hc] at hsp; simp at hsp
          | cons v1 r2 =>
            rw [hc] at hsp
            simp only [List.map_cons, List.cons.injEq] at hsp
            obtain ⟨t, ht⟩ := splitChars_head '=' s.data k1 v1 r2 hc
            have hk1 : k1 = "Names".data := by
              have := congrArg String.data hsp.1
              exact this
            have htake : s.data.take 6 = "Names=".data := by
              rw [ht, hk1]
              rfl
            have hline := hb.2.2.2.2 s hs htake
            have := addProperty_names_line m b.name hb.2.2.2.1
            rw [← hline] at this
            unfold addProperty stringsSplit at this
            rw [hc] at this
            simp only [List.map_cons] at this
            rw [hsp.1, hsp.2.1] at this
            exact this
      · right
        exact AList.lookup_insert_ne (fun h => hk h.symm)

theorem foldl_addProperty_names (b : OutputBlock) (hb : b.ok) (ls : List String)
    (hls : ∀ s ∈ ls, s ∈ b.lines) (m : GoMap String)
    (h : m.lookup "Names" = some b.name ∨ ("Names=" ++ b.name) ∈ ls) :
    (ls.foldl addProperty m).lookup "Names" = some b.name := by
  induction ls generalizing m with
  | nil =>
    rcases h with h | h
    · exact h
    · simp at h
  | cons s ss ih =>
    simp only [List.foldl_cons]
    apply ih (fun t ht => hls t (List.mem_cons_of_mem _ ht))
    rcases h with h | h
    · rcases addProperty_names_other m b hb s (hls s (List.mem_cons_self _ _)) with h1 | h1
      · exact Or.inl h1
      · exact Or.inl (h1.trans h)
    · rcases List.mem_cons.mp h with h1 | h1
      · left
        rw [← h1]
        exact addProperty_names_line m b.name hb.2.2.2.1
      · exact Or.inr h1

theorem newUnit_body_name (b : OutputBlock) (hb : b.ok) :
    (NewUnitFromShowOutputBlock b.body).Name = b.name := by
  rw [newUnit_body b (fun s hs => (hb.2.1 s hs).2.1)]
  unfold Unit.Name Unit.get
  simp only []
  rw [foldl_addProperty_names b hb b.lines (fun s hs => hs) ∅ (Or.inr hb.2.2.1)]
  rfl

/-! ## The catalog of an output made of blocks -/

/-- C3, as stated, fails: the output `Names=a.service`, `SubState=dead`, a blank
line, `Names=a.service` has two blocks with a `Names=` line each, and the mapping
after a successful `Update` from the empty list has one entry, not two. -/
theorem update_twin_names_one_entry :
    renderOutput 0 twinBlocks true = "Names=a.service\nSubState=dead\n\nNames=a.service\n" ∧
    ¬ (wellFormed twinBlocks →
        (emptyList.queryResult twinRun "").out = renderOutput 0 twinBlocks true →
        (emptyList.queryResult twinRun "").err = none →
        (emptyList.Update twinRun "").units.keys.length = twinBlocks.length) :=
  ⟨by decide, fun h => absurd
    (h (by unfold wellFormed OutputBlock.ok lineOk; decide) rfl rfl) (by decide)⟩

/-- C3 (amended): for every command output made of `N` blocks of non-empty lines
(lines without carriage return and within the token size of the scanner), each
block with a `Names=` line whose name has no `=` and is the only `Names` value of the
block, a successful `Update` displays exactly `N` entries, one per block in order,
each carrying the name of its block, and binds each of those names in the mapping.
When the names are pairwise distinct and the mapping was empty before the call, the
mapping has exactly `N` entries, keyed by those names, each bound to the unit of its
block.  This holds whatever the number of blank lines before the first block,
between blocks (at least one) or after the last block, and also when the last
newline of the output is missing. -/
theorem update_parses_blocks (run : Runner) (l : UnitList) (filter : String)
    (lead : Nat) (blocks : List OutputBlock) (finalNewline : Bool)
    (hwf : wellFormed blocks)
    (hout : (l.queryResult run filter).out = renderOutput lead blocks finalNewline)
    (herr : (l.queryResult run filter).err = none) :
    (l.Update run filter).items =
      blocks.map (fun b => ((NewUnitFromShowOutputBlock b.body).ColorizedString, b.name)) ∧
    (l.Update run filter).items.length = blocks.length ∧
    (∀ b ∈ blocks, b.name ∈ (l.Update run filter).units.keys) ∧
    ((blocks.map OutputBlock.name).Nodup → l.units.keys = [] →
      (l.Update run filter).units.keys.Perm (blocks.map OutputBlock.name) ∧
      (l.Update run filter).units.keys.length = blocks.length ∧
      ∀ b ∈ blocks,
        (l.Update run filter).units.lookup b.name =
          some (NewUnitFromShowOutputBlock b.body)) := by
  have hu := update_success run l filter herr
  rw [hout, parsedUnits_render lead blocks finalNewline hwf] at hu
  have hnames : (blocks.map fun b => NewUnitFromShowOutputBlock b.body).map Unit.Name =
      blocks.map OutputBlock.name := by
    rw [List.map_map]
    apply List.map_congr_left
    intro b hb
    exact newUnit_body_name b (hwf.1 b hb)
  have hitems : (l.Update run filter).items =
      blocks.map (fun b => ((NewUnitFromShowOutputBlock b.body).ColorizedString, b.name)) := by
    rw [hu, addUnits_items, List.map_map]
    simp only [UnitList.afterExec, List.nil_append]
    apply List.map_congr_left
    intro b hb
    simp only [Function.comp_apply, Unit.entry]
    rw [newUnit_body_name b (hwf.1 b hb)]
  have hmem : ∀ k, k ∈ (l.Update run filter).units.keys ↔
      k ∈ blocks.map OutputBlock.name ∨ k ∈ l.units.keys := by
    intro k
    rw [hu, addUnits_mem_keys, hnames]
    rfl
  refine ⟨hitems, ?_, ?_, ?_⟩
  · rw [hitems, List.length_map]
  · intro b hb
    exact (hmem b.name).mpr (Or.inl (List.mem_map_of_mem _ hb))
  · intro hnd hempty
    have hperm : (l.Update run filter).units.keys.Perm (blocks.map OutputBlock.name) := by
      rw [List.perm_ext_iff_of_nodup (AList.keys_nodup _) hnd]
      intro k
      rw [hmem k, hempty]
      simp
    refine ⟨hperm, ?_, ?_⟩
    · rw [hperm.length_eq, List.length_map]
    · intro b hb
      obtain ⟨bs1, bs2, hsplit⟩ := List.append_of_mem hb
      have hnot : b.name ∉ bs2.map OutputBlock.name := by
        rw [hsplit, List.map_append, List.map_cons] at hnd
        have h2 := (List.nodup_append.mp hnd).2.1
        exact (List.nodup_cons.mp h2).1
      have hnot2 : (NewUnitFromShowOutputBlock b.body).Name ∉
          (bs2.map fun b => NewUnitFromShowOutputBlock b.body).map Unit.Name := by
        rw [newUnit_body_name b (hwf.1 b hb), List.map_map]
        intro hin
        obtain ⟨b2, hb2, hn2⟩ := List.mem_map.mp hin
        apply hnot
        have hb2ok : b2.ok := hwf.1 b2 (by rw [hsplit]; simp [hb2])
        simp only [Function.comp_apply] at hn2
        rw [newUnit_body_name b2 hb2ok] at hn2
        exact List.mem_map.mpr ⟨b2, hb2, hn2⟩
      have hl := addUnits_lookup_last (bs1.map fun b => NewUnitFromShowOutputBlock b.body)
        (bs2.map fun b => NewUnitFromShowOutputBlock b.body)
        (NewUnitFromShowOutputBlock b.body) (l.afterExec run filter) hnot2
      rw [newUnit_body_name b (hwf.1 b hb)] at hl
      rw [hu]
      have hmap : (blocks.map fun b => NewUnitFromShowOutputBlock b.body) =
          (bs1.map fun b => NewUnitFromShowOutputBlock b.body) ++
            NewUnitFromShowOutputBlock b.body ::
              (bs2.map fun b => NewUnitFromShowOutputBlock b.body) := by
        rw [hsplit]
        simp
      rw [hmap]
      exact hl

/-- Witness of the amended C3: two blocks behind one blank line, two blank lines
between them, the last line without its newline. -/
theorem update_parses_blocks_witness :
    (emptyList.Update sampleRun "").items =
      sampleBlocks.map
        (fun b => ((NewUnitFromShowOutputBlock b.body).ColorizedString, b.name)) ∧
    (emptyList.Update sampleRun "").items.length = sampleBlocks.length ∧
    (∀ b ∈ sampleBlocks, b.name ∈ (emptyList.Update sampleRun "").units.keys) ∧
    ((sampleBlocks.map OutputBlock.name).Nodup → emptyList.units.keys = [] →
      (emptyList.Update sampleRun "").units.keys.Perm (sampleBlocks.map OutputBlock.name) ∧
      (emptyList.Update sampleRun "").units.keys.length = sampleBlocks.length ∧
      ∀ b ∈ sampleBlocks,
        (emptyList.Update sampleRun "").units.lookup b.name =
          some (NewUnitFromShowOutputBlock b.body)) :=
  update_parses_blocks sampleRun emptyList "" 1 sampleBlocks false
    (by unfold wellFormed OutputBlock.ok lineOk; decide) rfl rfl

end Sysdcmdr
